import Mathlib

/-!
Verification of the image reshaping and annotation drawing routines of
machinevision-toolbox-python: shallow embeddings of `samesize`, `hcat`,
`Tile` and `rotate` from `ImageReshape.py`, and of `draw_box`,
`draw_labelbox`, `draw_text` and `draw_point` from `base/graphics.py`,
with theorems settling the stated properties of each.
-/

namespace MVT

/-- Python exceptions raised by the embedded functions. -/
inductive PyError
  | valueError
  | typeError
  | nameError
  | attributeError
  | indexError
  | zeroDivisionError
deriving DecidableEq, Repr

/-- Python `int(x)` applied to a float value: truncation toward zero. -/
def pyInt (q : ℚ) : ℤ := if 0 ≤ q then ⌊q⌋ else ⌈q⌉

/-! ## Embedding of `base/graphics.py` -/

/-- The colour argument as the drawing helpers of `base/graphics.py`
receive it: Python `None`, an `int`, a colour-name string, or a length-3
sequence of channel values. -/
inductive ColorArg
  | none
  | int (n : ℤ)
  | str (s : String)
  | triple (a b c : ℚ)
deriving DecidableEq, Repr

/-- Python `isinstance(color, int)` on a colour argument. -/
def ColorArg.isInt : ColorArg → Bool
  | .int _ => true
  | _ => false

/-- A colour value as it stands when handed to OpenCV.  `bgrOf s` is kept
symbolic for the table lookup `color_bgr(s)` (that function lives outside
the files under scrutiny; per its use here it returns a length-3 BGR
sequence); `bgrOfRev s` is that sequence reversed by `color[::-1]`. -/
inductive ColorVal
  | none
  | int (n : ℤ)
  | bgrOf (s : String)
  | bgrOfRev (s : String)
  | triple (a b c : ℚ)
deriving DecidableEq, Repr

/-- Modelled from the spec: `color_bgr` (defined outside `src/`) maps a
colour name to the underlying library's BGR triple for it; the triple
itself is kept symbolic. -/
def color_bgr (s : String) : ColorVal := .bgrOf s

/-- Lines 92-93 of `graphics.py`: `if color is not None and len(color) == 3:
color = color[::-1]`.  Python `len` of an `int` raises `TypeError`;
`color_bgr` results and literal triples have length 3 and are reversed. -/
def colorLenReverse : ColorVal → Except PyError ColorVal
  | .none => .ok .none
  | .int _ => .error .typeError
  | .bgrOf s => .ok (.bgrOfRev s)
  | .bgrOfRev s => .ok (.bgrOf s)
  | .triple a b c => .ok (.triple c b a)

/-- The text `draw_point` paints for one point: the marker string alone,
or the marker joined with `text.format(i)` for point index `i` (the
formatted text is kept symbolic as template plus index). -/
inductive MarkerText
  | marker (m : String)
  | markerLabel (m : String) (template : String) (index : ℕ)
deriving DecidableEq, Repr

/-- The OpenCV drawing calls the embedded graphics helpers emit. -/
inductive DrawOp
  | rectangle (bl tr : ℤ × ℤ) (color : ColorVal) (thickness : ℤ)
  | putText (pos : ℚ × ℚ) (text : MarkerText) (color : ColorVal)
      (fontsize : ℚ) (fontthickness : ℤ)
deriving DecidableEq, Repr

/-- The 2×2 bounding-box matrix `[xmin, xmax; ymin, ymax]` accepted by
`draw_box`: field `eij` is the entry `bbox[i, j]`. -/
structure Bbox where
  e00 : ℚ
  e01 : ℚ
  e10 : ℚ
  e11 : ℚ
deriving DecidableEq, Repr

/-- The corner disambiguation of `draw_box` (`graphics.py` lines 58-84):
the `if/elif` chain computing `bl` and `tr` from whichever of `bbox`,
`bl`, `tl`, `tr`, `wh`, `centre` were given.  `br` is accepted and never
read, as in the source.  When no branch fires, `bl` and `tr` keep the
values passed in; a result of `none` means one of them is still Python
`None`, on which the later truncation `tuple(int(x) for x in bl)` raises
`TypeError`. -/
def draw_box_corners (bbox : Option Bbox) (bl tl br tr wh centre : Option (ℚ × ℚ)) :
    Option ((ℚ × ℚ) × (ℚ × ℚ)) :=
  match bbox, bl, tl, tr, wh, centre with
  | some m, _, _, _, _, _ =>
      some ((m.e00, m.e10), (m.e01, m.e11))
  | none, some b, none, none, some s, none =>
      some (b, (b.1 + s.1, b.2 + s.2))
  | none, some b, none, some t, none, none =>
      some (b, t)
  | none, none, none, none, some s, some c =>
      some ((c.1 - s.1 / 2, c.2 - s.2 / 2), (c.1 + s.1 / 2, c.2 + s.2 / 2))
  | none, none, none, some t, some s, none =>
      some ((t.1 - s.1, t.2 - s.2), t)
  | none, none, some t, none, some s, none =>
      some ((t.1, t.2 - s.2), (t.1 + s.1, t.2))
  | _, ob, _, ot, _, _ =>
      match ob, ot with
      | some b, some t => some (b, t)
      | _, _ => none

/-- Shallow embedding of `draw_box` (`graphics.py` lines 9-98).  The image
is represented by its shape (list of axis lengths); the result is the list
of OpenCV calls made together with the returned `(bl, tr)` pair, truncated
coordinatewise at lines 94-95.  `alpha` and `**kwargs` play no role in the
source body and are omitted. -/
def draw_box (shape : List ℕ) (bbox : Option Bbox)
    (bl tl br tr wh centre : Option (ℚ × ℚ))
    (color fillcolor : ColorArg) (thickness : ℤ) :
    List DrawOp × Except PyError ((ℤ × ℤ) × (ℤ × ℤ)) :=
  if !color.isInt && shape.length == 2 then
    ([], .error .typeError)
  else
    let corners := draw_box_corners bbox bl tl br tr wh centre
    let ct : ColorArg × ℤ :=
      match fillcolor with
      | .none => (color, thickness)
      | fc => (fc, -1)
    let cv0 : ColorVal :=
      match ct.1 with
      | .str s => color_bgr s
      | .none => .none
      | .int n => .int n
      | .triple a b c => .triple a b c
    match colorLenReverse cv0 with
    | .error e => ([], .error e)
    | .ok c =>
      match corners with
      | none => ([], .error .typeError)
      | some (b, t) =>
        let bl' := (pyInt b.1, pyInt b.2)
        let tr' := (pyInt t.1, pyInt t.2)
        ([.rectangle bl' tr' c ct.2], .ok (bl', tr'))

/-- Shallow embedding of `draw_text` (`graphics.py` lines 170-198): the
greyscale guard, the `color_bgr` lookup for string colours, and one
`cv.putText` call. -/
def draw_text (shape : List ℕ) (pos : ℚ × ℚ) (text : String) (color : ColorArg)
    (fontsize : ℚ) (fontthickness : ℤ) :
    List DrawOp × Except PyError Unit :=
  if !color.isInt && shape.length == 2 then
    ([], .error .typeError)
  else
    let c : ColorVal :=
      match color with
      | .str s => color_bgr s
      | .none => .none
      | .int n => .int n
      | .triple a b c => .triple a b c
    ([.putText pos (.marker text) c fontsize fontthickness], .ok ())

/-- Shallow embedding of `draw_point` (`graphics.py` lines 200-252), with
the position argument already parsed to the list of points it denotes (the
source accepts a 2×n array, a pair, or a list of pairs).  One `cv.putText`
per point; an empty `text` is falsy in Python, so it adds no label. -/
def draw_point (shape : List ℕ) (pts : List (ℚ × ℚ)) (marker : String)
    (text : Option String) (color : ColorArg) (fontsize : ℚ) (fontthickness : ℤ) :
    List DrawOp × Except PyError Unit :=
  if !color.isInt && shape.length == 2 then
    ([], .error .typeError)
  else
    let c : ColorVal :=
      match color with
      | .str s => color_bgr s
      | .none => .none
      | .int n => .int n
      | .triple a b c => .triple a b c
    (((List.range pts.length).zip pts).map fun iz =>
        .putText iz.2
          (match text with
           | .none => .marker marker
           | some t => if t = "" then .marker marker else .markerLabel marker t iz.1)
          c fontsize fontthickness,
     .ok ())

/-- The names bound at module level in `base/graphics.py`: its imports and
the functions it defines (`plot_box` and `plot_text` are referenced there
but not defined in the file). -/
def graphicsGlobals : List String :=
  ["cv", "base", "ANSITable", "Column", "color_bgr", "plt", "np",
   "draw_box", "plot_labelbox", "draw_labelbox", "draw_text", "draw_point"]

/-- Python builtins that name lookup reaches after the module globals; a
representative list, in which (as in CPython's builtins) `color` does not
appear. -/
def pyBuiltins : List String :=
  ["len", "isinstance", "int", "str", "float", "tuple", "list", "dict",
   "range", "max", "min", "abs", "round", "print", "enumerate", "zip", "format"]

/-- The local names of `draw_labelbox`: its parameters and every name its
body assigns.  `color` is not among them, so the guard's read of `color`
resolves through the module globals and then the builtins. -/
def draw_labelbox_locals : List String :=
  ["image", "text", "textcolor", "font", "fontsize", "fontthickness",
   "kwargs", "twh", "bl", "tr", "h", "h2"]

/-- Shallow embedding of `draw_labelbox` (`graphics.py` lines 126-168).
Its first statement evaluates the name `color`, which is neither a local
of the function nor bound in the module globals or builtins; the remainder
of the body (text sizing, the two `draw_box` calls, the `draw_text` call)
is unreachable and stands for `.ok ()` in the two dead branches. -/
def draw_labelbox (shape : List ℕ) (text : String) : Except PyError Unit :=
  if draw_labelbox_locals.contains "color" then .ok ()
  else if graphicsGlobals.contains "color" || pyBuiltins.contains "color" then .ok ()
  else .error .nameError

/-! ## Embedding of `ImageReshape.py`: shapes, `scale`, `samesize`, `rotate` -/

/-- The shape of an `Image`: rows, columns, and whether a colour axis is
present (ndim = 3). -/
structure ImgShape where
  height : ℕ
  width : ℕ
  iscolor : Bool
deriving DecidableEq, Repr

/-- An angle as OpenCV receives it: `np.degrees` applied to the radian
value is kept symbolic, so no floating-point π enters the model. -/
inductive AngleDeg
  | degreesOf (radians : ℚ)
deriving DecidableEq, Repr

/-- The OpenCV calls the reshape methods make. -/
inductive CVCall
  | resize (fx fy : ℚ)
  | getRotationMatrix2D (centre : ℚ × ℚ) (angle : AngleDeg) (scale : ℚ)
  | warpAffine (dsize : ℕ × ℕ)
deriving DecidableEq, Repr

/-- OpenCV `cvRound`: nearest integer, ties to even (the rounding
`cv.resize` applies when computing its output size from `fx`, `fy`). -/
def cvRound (q : ℚ) : ℤ :=
  if Int.fract q = 1 / 2 then (if 2 ∣ ⌊q⌋ then ⌊q⌋ else ⌊q⌋ + 1) else round q

/-- A Python index into an axis of length `n`, normalised: negative
indices count from the end, then both ends clamp to `[0, n]`. -/
def pyIdxNorm (n : ℕ) (i : ℤ) : ℤ :=
  if i < 0 then max 0 ((n : ℤ) + i) else min (n : ℤ) i

/-- Length of the Python slice `a[start:stop]` over an axis of length `n`. -/
def pySliceLen (n : ℕ) (start stop : ℤ) : ℕ :=
  (pyIdxNorm n stop - pyIdxNorm n start).toNat

/-- Output shape of `scale(sfactor)` (`ImageReshape.py` lines 221-277):
the underlying `cv.resize(im, None, fx=s, fy=s, ...)` sizes its output as
`(round(fx*cols), round(fy*rows))` with OpenCV's rounding. -/
def scaleDims (im : ImgShape) (s : ℚ) : ImgShape :=
  { height := (cvRound (im.height * s)).toNat
    width := (cvRound (im.width * s)).toNat
    iscolor := im.iscolor }

/-- Shallow embedding of `samesize` (`ImageReshape.py` lines 170-219),
returning the OpenCV calls made together with the outcome.  After the bias
check it scales by `sc.max()` and enters the two trim blocks exactly as
the source does: the first block's guard compares `o.height` with
`im2.width`; its body rebinds `o` to the ndarray slice
`o.image[d1:-d2, :, :]` (an `IndexError` on a 2-D image), after which the
second guard's `o.width` is an `AttributeError` on an ndarray.  When only
the second block runs, `out` is the slice `o.image[:, d1:-d2, :]`.  When
neither block runs, the final `self.__class__(out, ...)` reads the
never-assigned local `out` and raises `NameError`. -/
def samesize (im im2 : ImgShape) (bias : ℚ) :
    List CVCall × Except PyError ImgShape :=
  if bias < 0 ∨ bias > 1 then ([], .error .valueError)
  else
    let sc := max ((im2.height : ℚ) / (im.height : ℚ)) ((im2.width : ℚ) / (im.width : ℚ))
    let o := scaleDims im sc
    let calls := [CVCall.resize sc sc]
    if im2.width < o.height then
      (calls, .error (if im.iscolor then .attributeError else .indexError))
    else if im2.width < o.width then
      if im.iscolor then
        let d : ℤ := (o.width : ℤ) - (im2.width : ℤ)
        let d1 : ℤ := max 1 ⌊(d : ℚ) * bias⌋
        let d2 : ℤ := d - d1
        (calls, .ok { height := o.height
                      width := pySliceLen o.width d1 (-d2)
                      iscolor := im.iscolor })
      else (calls, .error .indexError)
    else (calls, .error .nameError)

/-- Shallow embedding of `rotate` (`ImageReshape.py` lines 313-385).  The
angle is a scalar by type, so the `smb.isscalar` guard passes; `crop` is
accepted and, as in the source, never read; the rotation matrix comes from
the single call `cv.getRotationMatrix2D(centre, np.degrees(angle), 1.0)`
and the output from the single call `cv.warpAffine(self.A, M, (width,
height))`, whose result has exactly the requested `dsize`. -/
def rotate (im : ImgShape) (angle : ℚ) (crop : Bool) (centre : Option (List ℚ)) :
    Except PyError (List CVCall × ImgShape) :=
  match centre with
  | none =>
      .ok ([.getRotationMatrix2D ((im.width : ℚ) / 2, (im.height : ℚ) / 2)
              (.degreesOf angle) 1,
            .warpAffine (im.width, im.height)],
           { height := im.height, width := im.width, iscolor := im.iscolor })
  | some l =>
      if l.length ≠ 2 then .error .valueError
      else
        .ok ([.getRotationMatrix2D (l.getD 0 0, l.getD 1 0) (.degreesOf angle) 1,
              .warpAffine (im.width, im.height)],
             { height := im.height, width := im.width, iscolor := im.iscolor })

/-- The specification's account of `rotate(angle)` (claim C5), written
from the spec's words for comparison with `rotate`: a single
rotation-matrix call with centre `(width/2, height/2)`, the angle
converted to degrees and scale fixed at `1.0`, a single `warpAffine`
producing the output, and no other transformation. -/
def rotate_spec (im : ImgShape) (angle : ℚ) : List CVCall × ImgShape :=
  ([.getRotationMatrix2D ((im.width : ℚ) / 2, (im.height : ℚ) / 2)
      (.degreesOf angle) 1,
    .warpAffine (im.width, im.height)],
   { height := im.height, width := im.width, iscolor := im.iscolor })

/-! ## Embedding of `Tile` (`ImageReshape.py` lines 62-98) -/

/-- A tile as `Tile` inspects it: its 2-D shape `(rows, cols)` and its
dtype (an opaque tag). -/
structure TileImg where
  shape : ℕ × ℕ
  dtype : ℕ
deriving DecidableEq, Repr

/-- Modelled from the spec: the canvas `cls.Constant(width, height,
bgcolor, dtype)` creates (`Constant` is defined outside `src/`) — a
width×height image filled with `bgcolor` — onto which `paste(im, (u, v),
'set', 'topleft')` (also outside `src/`) writes tile `im` with its
top-left corner at `(u, v)`; the pastes are recorded in order. -/
structure TileCanvas where
  width : ℕ
  height : ℕ
  bg : ℕ
  dtype : ℕ
  pastes : List (TileImg × ℕ × ℕ)
deriving DecidableEq, Repr

/-- One pass of the inner `for c in range(columns)` loop of `Tile`
(`ImageReshape.py` lines 87-94): pop up to `cols` tiles from the front,
pasting them at `u, u + wstep, ...` in row `v`; returns the pastes made
and the list as the pops leave it. -/
def tileRow {α : Type} (tiles : List α) (cols : ℕ) (u v wstep : ℕ) :
    List (α × ℕ × ℕ) × List α :=
  match cols, tiles with
  | 0, ts => ([], ts)
  | _ + 1, [] => ([], [])
  | c + 1, t :: ts =>
      let rest := tileRow ts c (u + wstep) v wstep
      ((t, u, v) :: rest.1, rest.2)

/-- The `while len(tiles) > 0` loop of `Tile` (`ImageReshape.py` lines
84-95), with fuel: each iteration runs one inner row pass at `u = sep` and
advances `v` by `hstep`.  Fuel `tiles.length` suffices, since every
iteration with a non-empty list and `cols ≥ 1` pops at least one tile;
with `cols = 0` the Python loop would never terminate, but `Tile` raises
`ZeroDivisionError` before reaching it. -/
def tileRowsAux {α : Type} (fuel : ℕ) (tiles : List α) (cols : ℕ)
    (v sep wstep hstep : ℕ) : List (α × ℕ × ℕ) × List α :=
  match fuel with
  | 0 => ([], tiles)
  | fuel + 1 =>
      match tiles with
      | [] => ([], [])
      | t :: ts =>
          let row := tileRow (t :: ts) cols sep v wstep
          let rest := tileRowsAux fuel row.2 cols (v + hstep) sep wstep hstep
          (row.1 ++ rest.1, rest.2)

/-- The whole paste loop of `Tile`, starting at `v = sep`. -/
def tileRows {α : Type} (tiles : List α) (cols : ℕ) (sep wstep hstep : ℕ) :
    List (α × ℕ × ℕ) × List α :=
  tileRowsAux tiles.length tiles cols sep sep wstep hstep

/-- Shallow embedding of `Tile` (`ImageReshape.py` lines 62-98) for 2-D
tiles, returning the canvas together with the final state of the caller's
`tiles` list (the loop consumes it with `pop(0)`).  With no tiles,
`tiles[0]` raises `IndexError`; the single shape/dtype checking loop
raises `ValueError` on any mismatch; `int(np.ceil(len(tiles) / columns))`
raises `ZeroDivisionError` for `columns = 0` and equals
`(n + columns - 1) / columns` in the exact integer arithmetic involved. -/
def Tile (tiles : List TileImg) (columns sep : ℕ) (bgcolor : ℕ) :
    Except PyError (TileCanvas × List TileImg) :=
  match tiles with
  | [] => .error .indexError
  | t0 :: rest =>
      if rest.any fun t => t.shape != t0.shape || t.dtype != t0.dtype then
        .error .valueError
      else if columns = 0 then .error .zeroDivisionError
      else
        let n := (t0 :: rest).length
        let nrows := (n + columns - 1) / columns
        let loop := tileRows (t0 :: rest) columns sep (t0.shape.2 + sep) (t0.shape.1 + sep)
        .ok ({ width := columns * t0.shape.2 + (columns + 1) * sep
               height := nrows * t0.shape.1 + (nrows + 1) * sep
               bg := bgcolor
               dtype := t0.dtype
               pastes := loop.1 }, loop.2)

/-! ## Embedding of `hcat` (`ImageReshape.py` lines 38-59) -/

/-- A greyscale image as its list of pixel rows. -/
structure GreyImg where
  rows : List (List ℚ)
deriving DecidableEq, Repr

/-- The image's height, `image.height` = number of rows. -/
def GreyImg.height (im : GreyImg) : ℕ := im.rows.length

/-- The image's width; for the rectangular images `hcat` handles, the
length of the first row. -/
def GreyImg.width (im : GreyImg) : ℕ := (im.rows.headD []).length

/-- `np.pad(a, ((0, after), (0, 0)), constant_values=(cb, ca))` on a 2-D
array of row length `w`: `cb` fills the before side of every axis (zero
rows here, hence no occurrence of `cb` in the result) and `ca` the after
side, so the `after` appended rows hold `ca`. -/
def np_pad_bottom (a : List (List ℚ)) (after : ℕ) (cb ca : ℚ) (w : ℕ) :
    List (List ℚ) :=
  List.replicate 0 (List.replicate w cb) ++ a ++
    List.replicate after (List.replicate w ca)

/-- `max([image.height for image in images])` for a non-empty list. -/
def maxHeights (images : List GreyImg) : ℕ :=
  images.foldr (fun im m => max im.height m) 0

/-- The loop of `hcat` (`ImageReshape.py` lines 50-57): each image
shorter than the common height is padded at the bottom with
`np.pad(image.image, ((0, height-image.height), (0, 0)),
constant_values=(pad, 0))`, the running width `combo.shape[1]` is appended
to `u`, and the image is `np.hstack`ed onto `combo` (elementwise row
concatenation). -/
def hcatLoop (height : ℕ) (pad : ℚ) (combo : List (List ℚ)) (u : List ℕ) :
    List GreyImg → List (List ℚ) × List ℕ
  | [] => (combo, u)
  | im :: rest =>
      let padded :=
        if im.height < height then
          np_pad_bottom im.rows (height - im.height) pad 0 im.width
        else im.rows
      hcatLoop height pad (List.zipWith (· ++ ·) combo padded)
        (u ++ [(combo.headD []).length]) rest

/-- Shallow embedding of `hcat` (`ImageReshape.py` lines 38-59) for a
list of greyscale images, starting from the empty `combo =
np.empty((height, 0))`; with an empty list, `max([])` raises
`ValueError`. -/
def hcat (images : List GreyImg) (pad : ℚ) : Except PyError (GreyImg × List ℕ) :=
  match images with
  | [] => .error .valueError
  | _ =>
      let height := maxHeights images
      let result := hcatLoop height pad (List.replicate height []) [] images
      .ok (⟨result.1⟩, result.2)

/-- Sum of the images' widths. -/
def widthSum (images : List GreyImg) : ℕ := (images.map GreyImg.width).sum

/-- The running-offset values `hcat` appends to `u` while images remain,
starting from a `combo` of width `w`. -/
def cumWidths (w : ℕ) : List GreyImg → List ℕ
  | [] => []
  | im :: rest => w :: cumWidths (w + im.width) rest

/-- The slice of one image contributing to row `r` of the concatenation:
the image's row `r`, or a zero row of its width once `r` passes its
height — the bottom padding `np.pad` writes with its after-side
constant `0`. -/
def sliceRow (r : ℕ) (im : GreyImg) : List ℚ :=
  if r < im.rows.length then im.rows.getD r [] else List.replicate im.width 0

/-- Closed form of the concatenated canvas: row `r` is the concatenation
of the images' row-`r` slices, in order. -/
def stackRows (h : ℕ) (images : List GreyImg) : List (List ℚ) :=
  (List.range h).map fun r => (images.map (sliceRow r)).flatten

/-! ## Theorems -/

/-- C4: every call to `draw_labelbox` raises `NameError`, whatever the
arguments: its greyscale guard reads the name `color`, which is bound
neither in the function, nor at module level, nor in the builtins, so the
function can never draw a labelled box. -/
theorem draw_labelbox_always_nameerror (shape : List ℕ) (text : String) :
    draw_labelbox shape text = .error .nameError := rfl

/-- C2: every width-height corner mode of `draw_box` determines the same
extent: in the `bl+wh`, `tr+wh`, `tl+wh` and `centre+wh` modes the corners
computed before truncation satisfy `tr - bl = (w, h)` componentwise; in
the `bbox` mode `bl = (bbox[0,0], bbox[1,0])` and `tr = (bbox[0,1],
bbox[1,1])`; and, on a colour image with a length-3 colour, `draw_box`
returns exactly the computed pair with each coordinate truncated to
`int`. -/
theorem draw_box_corner_modes (x y w h cx cy : ℚ) (m : Bbox) :
    (∃ b t, draw_box_corners none (some (x, y)) none none none (some (w, h)) none
        = some (b, t) ∧ t.1 - b.1 = w ∧ t.2 - b.2 = h)
  ∧ (∃ b t, draw_box_corners none none none none (some (x, y)) (some (w, h)) none
        = some (b, t) ∧ t.1 - b.1 = w ∧ t.2 - b.2 = h)
  ∧ (∃ b t, draw_box_corners none none (some (x, y)) none none (some (w, h)) none
        = some (b, t) ∧ t.1 - b.1 = w ∧ t.2 - b.2 = h)
  ∧ (∃ b t, draw_box_corners none none none none none (some (w, h)) (some (cx, cy))
        = some (b, t) ∧ t.1 - b.1 = w ∧ t.2 - b.2 = h)
  ∧ draw_box_corners (some m) none none none none none none
      = some ((m.e00, m.e10), (m.e01, m.e11))
  ∧ ∀ (hh ww : ℕ) (bbox : Option Bbox) (bl tl br tr wh centre : Option (ℚ × ℚ))
      (a b' c : ℚ) (th : ℤ),
      (draw_box [hh, ww, 3] bbox bl tl br tr wh centre (.triple a b' c) .none th).2 =
        match draw_box_corners bbox bl tl br tr wh centre with
        | some (bq, tq) => .ok ((pyInt bq.1, pyInt bq.2), (pyInt tq.1, pyInt tq.2))
        | none => .error .typeError := by
  refine ⟨⟨(x, y), (x + w, y + h), rfl, by ring, by ring⟩,
          ⟨(x - w, y - h), (x, y), rfl, by ring, by ring⟩,
          ⟨(x, y - h), (x + w, y), rfl, by ring, by ring⟩,
          ⟨(cx - w / 2, cy - h / 2), (cx + w / 2, cy + h / 2), rfl, by ring, by ring⟩,
          rfl, ?_⟩
  intro hh ww bbox bl tl br tr wh centre a b' c th
  rcases hd : draw_box_corners bbox bl tl br tr wh centre with _ | ⟨b, t⟩ <;>
    simp [draw_box, hd, colorLenReverse, color_bgr]

/-- C8: `draw_box`, `draw_text` and `draw_point` each raise `TypeError`
when the colour is not an `int` and the image is 2-dimensional
(greyscale), and do so before emitting any drawing call. -/
theorem draw_guards_typeerror (shape : List ℕ) (color : ColorArg)
    (hc : color.isInt = false) (hs : shape.length = 2)
    (bbox : Option Bbox) (bl tl br tr wh centre : Option (ℚ × ℚ))
    (fillcolor : ColorArg) (th : ℤ) (pos : ℚ × ℚ) (text : String)
    (pts : List (ℚ × ℚ)) (marker : String) (label : Option String)
    (fs : ℚ) (ft : ℤ) :
    draw_box shape bbox bl tl br tr wh centre color fillcolor th
        = ([], .error .typeError)
  ∧ draw_text shape pos text color fs ft = ([], .error .typeError)
  ∧ draw_point shape pts marker label color fs ft = ([], .error .typeError) := by
  have hg : (!color.isInt && shape.length == 2) = true := by simp [hc, hs]
  refine ⟨?_, ?_, ?_⟩ <;> simp [draw_box, draw_text, draw_point, hg]

/-- Witness for C8 at a concrete greyscale shape and string colour. -/
theorem draw_guards_typeerror_witness :
    draw_box [4, 5] none none none none none none none (.str "red") .none 1
        = ([], .error .typeError)
  ∧ draw_text [4, 5] (0, 0) "hi" (.str "red") 1 2 = ([], .error .typeError)
  ∧ draw_point [4, 5] [] "+" none (.str "red") 1 2 = ([], .error .typeError) :=
  draw_guards_typeerror [4, 5] (.str "red") rfl rfl none none none none none
    none none .none 1 (0, 0) "hi" [] "+" none 1 2

/-- C5: `rotate(angle)` with the default centre refines the spec's
description exactly: one rotation-matrix call with centre
`(width/2, height/2)`, degrees conversion, scale `1.0`, one `warpAffine`,
and nothing else; the input shape value is left untouched. -/
theorem rotate_refines_spec (im : ImgShape) (angle : ℚ) (crop : Bool) :
    rotate im angle crop none = .ok (rotate_spec im angle) := rfl

/-- C10: for every angle and every valid centre (default, or of length 2),
`rotate` returns an image whose width and height equal the input's, and
the `crop` parameter has no effect on the result. -/
theorem rotate_preserves_size (im : ImgShape) (angle : ℚ) (crop : Bool)
    (centre : Option (List ℚ))
    (hc : centre = none ∨ ∃ l, centre = some l ∧ l.length = 2) :
    (∃ calls out, rotate im angle crop centre = .ok (calls, out)
        ∧ out.height = im.height ∧ out.width = im.width)
  ∧ ∀ crop2 : Bool, rotate im angle crop centre = rotate im angle crop2 centre := by
  rcases hc with rfl | ⟨l, rfl, hl⟩
  · exact ⟨⟨_, _, rfl, rfl, rfl⟩, fun _ => rfl⟩
  · refine ⟨⟨[.getRotationMatrix2D (l.getD 0 0, l.getD 1 0) (.degreesOf angle) 1,
               .warpAffine (im.width, im.height)],
             { height := im.height, width := im.width, iscolor := im.iscolor },
             ?_, rfl, rfl⟩,
            fun _ => rfl⟩
    simp [rotate, hl]

/-- Witness for C10: a 4×3 image rotated by 1 radian about the default
centre keeps its size, and `crop` is inert. -/
theorem rotate_preserves_size_witness :
    (∃ calls out, rotate ⟨3, 4, false⟩ 1 true none = .ok (calls, out)
        ∧ out.height = ImgShape.height ⟨3, 4, false⟩
        ∧ out.width = ImgShape.width ⟨3, 4, false⟩)
  ∧ ∀ crop2 : Bool, rotate ⟨3, 4, false⟩ 1 true none
      = rotate ⟨3, 4, false⟩ 1 crop2 none :=
  rotate_preserves_size ⟨3, 4, false⟩ 1 true none (Or.inl rfl)

/-- C7: `samesize` raises `ValueError` exactly when `bias` lies outside
`[0, 1]`, and then it does so before any scaling or cropping: no OpenCV
call has been made.  (The size hypotheses record that the model's exact
arithmetic is faithful for images with at least one row and column.) -/
theorem samesize_valueerror_iff (im im2 : ImgShape) (bias : ℚ)
    (hh : 1 ≤ im.height) (hw : 1 ≤ im.width) :
    ((samesize im im2 bias).2 = .error .valueError ↔ (bias < 0 ∨ bias > 1))
  ∧ ((bias < 0 ∨ bias > 1) → (samesize im im2 bias).1 = []) := by
  by_cases hb : bias < 0 ∨ bias > 1
  · simp [samesize, hb]
  · rw [samesize, if_neg hb]
    refine ⟨⟨fun hres => absurd hres ?_, fun hbias => absurd hbias hb⟩,
            fun hbias => absurd hbias hb⟩
    dsimp only
    split
    · split <;> simp
    · split
      · split <;> simp
      · simp

/-- Witness for C7: with bias 2 on a 3×5 image, `samesize` raises
`ValueError` having made no OpenCV call. -/
theorem samesize_valueerror_iff_witness :
    ((samesize ⟨3, 5, true⟩ ⟨3, 5, true⟩ 2).2 = .error .valueError
        ↔ ((2 : ℚ) < 0 ∨ (2 : ℚ) > 1))
  ∧ (((2 : ℚ) < 0 ∨ (2 : ℚ) > 1) → (samesize ⟨3, 5, true⟩ ⟨3, 5, true⟩ 2).1 = []) :=
  samesize_valueerror_iff ⟨3, 5, true⟩ ⟨3, 5, true⟩ 2 (by decide) (by decide)

/-- C1 (the code against its own docstring): at the failing input — a 3×5
colour image brought to the size of a 3×5 target with bias 1/2 — the
scale factor is 1, neither trim guard fires, and `samesize` raises
`NameError` from the never-assigned `out` instead of returning an image
of `im2`'s dimensions. -/
theorem samesize_nameerror_on_equal_size :
    samesize ⟨3, 5, true⟩ ⟨3, 5, true⟩ (1 / 2) =
      ([CVCall.resize 1 1], .error .nameError) := by
  simp only [samesize, scaleDims, cvRound]
  norm_num

/-- The leftover list after one inner row pass: the `pop(0)` calls remove
the first `cols` elements (or all of them, when fewer remain). -/
lemma tileRow_snd {α : Type} (tiles : List α) (cols : ℕ) (u v wstep : ℕ) :
    (tileRow tiles cols u v wstep).2 = tiles.drop cols := by
  induction cols generalizing tiles u with
  | zero => cases tiles <;> simp [tileRow]
  | succ c ih =>
      cases tiles with
      | nil => simp [tileRow]
      | cons t ts => simp [tileRow, ih]

/-- Number of pastes one inner row pass makes. -/
lemma tileRow_fst_length {α : Type} (tiles : List α) (cols : ℕ) (u v wstep : ℕ) :
    (tileRow tiles cols u v wstep).1.length = min cols tiles.length := by
  induction cols generalizing tiles u with
  | zero => cases tiles <;> simp [tileRow]
  | succ c ih =>
      cases tiles with
      | nil => simp [tileRow]
      | cons t ts => simp [tileRow, ih, Nat.succ_min_succ]

/-- The pastes of one inner row pass: entry `i` pastes tile `i` at
`(u + i*wstep, v)`, for `i < cols`. -/
lemma tileRow_fst_get {α : Type} (tiles : List α) (cols : ℕ) (u v wstep : ℕ) (i : ℕ) :
    (tileRow tiles cols u v wstep).1[i]? =
      if i < cols then tiles[i]?.map (fun t => (t, u + i * wstep, v)) else none := by
  induction cols generalizing tiles u i with
  | zero => cases tiles <;> simp [tileRow]
  | succ c ih =>
      cases tiles with
      | nil => cases i <;> simp [tileRow]
      | cons t ts =>
          cases i with
          | zero => simp [tileRow]
          | succ j =>
              have hpos : ∀ t' : α, (t', u + (j + 1) * wstep, v)
                  = (t', u + wstep + j * wstep, v) := by
                intro t'; rw [Prod.mk.injEq]; constructor
                · rfl
                · rw [Prod.mk.injEq]; exact ⟨by ring, rfl⟩
              simp only [tileRow, List.getElem?_cons_succ, ih, Nat.succ_lt_succ_iff]
              rcases Nat.lt_or_ge j c with hj | hj
              · rw [if_pos hj, if_pos hj]
                cases ts[j]? <;> simp [hpos]
              · rw [if_neg (Nat.not_lt.mpr hj), if_neg (Nat.not_lt.mpr hj)]

/-- Unfolding of one `while` iteration on a non-empty list. -/
lemma tileRowsAux_cons {α : Type} (k : ℕ) (t : α) (ts : List α)
    (cols v sep wstep hstep : ℕ) :
    tileRowsAux (k + 1) (t :: ts) cols v sep wstep hstep =
      ((tileRow (t :: ts) cols sep v wstep).1 ++
        (tileRowsAux k ((t :: ts).drop cols) cols (v + hstep) sep wstep hstep).1,
       (tileRowsAux k ((t :: ts).drop cols) cols (v + hstep) sep wstep hstep).2) := by
  simp [tileRowsAux, tileRow_snd]

/-- Specification of the paste loop: with positive `cols` and enough fuel
it makes one paste per tile, pasting tile `i` at
`(sep + (i % cols) * wstep, v + (i / cols) * hstep)`, and it empties the
list. -/
lemma tileRowsAux_spec {α : Type} (cols : ℕ) (hc : cols ≠ 0) (sep wstep hstep : ℕ) :
    ∀ (fuel : ℕ) (tiles : List α), tiles.length ≤ fuel → ∀ (v : ℕ),
      (tileRowsAux fuel tiles cols v sep wstep hstep).1.length = tiles.length
      ∧ (∀ i : ℕ, (tileRowsAux fuel tiles cols v sep wstep hstep).1[i]? =
          tiles[i]?.map fun t => (t, sep + (i % cols) * wstep, v + (i / cols) * hstep))
      ∧ (tileRowsAux fuel tiles cols v sep wstep hstep).2 = [] := by
  intro fuel
  induction fuel with
  | zero =>
      intro tiles hlen v
      have htn : tiles = [] := List.eq_nil_of_length_eq_zero (Nat.le_zero.mp hlen)
      subst htn
      exact ⟨rfl, fun i => by simp [tileRowsAux], rfl⟩
  | succ k ih =>
      intro tiles hlen v
      match tiles with
      | [] => exact ⟨rfl, fun i => by simp [tileRowsAux], rfl⟩
      | t :: ts =>
          have hcpos : 0 < cols := Nat.pos_of_ne_zero hc
          have hdroplen : ((t :: ts).drop cols).length ≤ k := by
            rw [List.length_drop]
            simp only [List.length_cons] at hlen ⊢
            omega
          obtain ⟨ihlen, ihget, ihsnd⟩ := ih ((t :: ts).drop cols) hdroplen (v + hstep)
          rw [tileRowsAux_cons]
          refine ⟨?_, ?_, ihsnd⟩
          · rw [List.length_append, tileRow_fst_length, ihlen, List.length_drop]
            simp only [List.length_cons]
            omega
          · intro i
            have hrowlen : (tileRow (t :: ts) cols sep v wstep).1.length
                = min cols (t :: ts).length := tileRow_fst_length _ _ _ _ _
            rcases Nat.lt_or_ge i (min cols (t :: ts).length) with hi | hi
            · rw [List.getElem?_append_left (hrowlen ▸ hi), tileRow_fst_get,
                if_pos (lt_of_lt_of_le hi (Nat.min_le_left _ _))]
              have hicols : i < cols := lt_of_lt_of_le hi (Nat.min_le_left _ _)
              rw [Nat.mod_eq_of_lt hicols, Nat.div_eq_of_lt hicols]
              simp
            · rw [List.getElem?_append_right (hrowlen ▸ hi), hrowlen]
              rcases Nat.lt_or_ge (t :: ts).length cols with hsz | hsz
              · -- fewer tiles than columns: this row already consumed them all
                have hmin : min cols (t :: ts).length = (t :: ts).length := by omega
                rw [hmin] at hi ⊢
                have h1 : ((t :: ts).drop cols) = [] := by
                  rw [List.drop_eq_nil_iff]
                  omega
                rw [h1]
                have h2 := ihget (i - (t :: ts).length)
                rw [h1] at h2
                simp only [List.getElem?_nil, Option.map_none'] at h2
                rw [h2, List.getElem?_eq_none hi, Option.map_none']
              · -- at least `cols` tiles: index into the recursive rows
                have hmin : min cols (t :: ts).length = cols := by omega
                rw [hmin] at hi ⊢
                rw [ihget (i - cols), List.getElem?_drop]
                have hidx : cols + (i - cols) = i := by omega
                rw [hidx]
                have e1 : (i - cols) % cols = i % cols := (Nat.mod_eq_sub_mod hi).symm
                have e2 : v + hstep + (i - cols) / cols * hstep = v + i / cols * hstep := by
                  rw [Nat.div_eq_sub_div hcpos hi]
                  ring
                rw [e1]
                cases (t :: ts)[i]? <;> simp [e2]

/-- For positive `c`, the rational ceiling of `n / c` is the natural
number `(n + c - 1) / c`, the form `Tile`'s embedding uses for
`int(np.ceil(n / columns))`. -/
lemma ceil_div_eq_add_pred_div (n c : ℕ) (hc : c ≠ 0) :
    ⌈(n : ℚ) / (c : ℚ)⌉ = (((n + c - 1) / c : ℕ) : ℤ) := by
  have hc0 : 0 < c := Nat.pos_of_ne_zero hc
  have hcq : (0 : ℚ) < (c : ℚ) := by exact_mod_cast hc0
  have key : n ≤ c * ((n + c - 1) / c) ∧ c * ((n + c - 1) / c) < n + c := by
    have hqr := Nat.div_add_mod (n + c - 1) c
    have hr : (n + c - 1) % c < c := Nat.mod_lt _ hc0
    set m := c * ((n + c - 1) / c) with hm
    set r := (n + c - 1) % c with hrr
    omega
  have key1 : (n : ℚ) ≤ (c : ℚ) * (((n + c - 1) / c : ℕ) : ℚ) := by
    exact_mod_cast key.1
  have key2 : (c : ℚ) * (((n + c - 1) / c : ℕ) : ℚ) < (n : ℚ) + (c : ℚ) := by
    exact_mod_cast key.2
  rw [Int.ceil_eq_iff, Int.cast_natCast]
  constructor
  · rw [lt_div_iff₀ hcq]
    have hexp : ((((n + c - 1) / c : ℕ) : ℚ) - 1) * c
        = (c : ℚ) * (((n + c - 1) / c : ℕ) : ℚ) - c := by ring
    rw [hexp]
    linarith
  · rw [div_le_iff₀ hcq, mul_comm]
    exact key1

/-- C3: for a non-empty list of tiles of equal 2-D shape `(h, w)` and
equal dtype, and a positive column count, `Tile` returns a canvas filled
with `bgcolor` of width `columns*w + (columns+1)*sep` and height
`nrows*h + (nrows+1)*sep`, where `nrows = ⌈n/columns⌉` (equal to
`(n + columns - 1) / columns`), and tile `i` is pasted with its top-left
corner at `(sep + (i % columns)*(w + sep), sep + (i / columns)*(h + sep))`. -/
theorem Tile_layout (t0 : TileImg) (ts : List TileImg) (columns sep bgcolor : ℕ)
    (hcols : columns ≠ 0)
    (hsame : ∀ t ∈ ts, t.shape = t0.shape ∧ t.dtype = t0.dtype) :
    ∃ canvas rest, Tile (t0 :: ts) columns sep bgcolor = .ok (canvas, rest)
      ∧ canvas.width = columns * t0.shape.2 + (columns + 1) * sep
      ∧ canvas.height =
          ((t0 :: ts).length + columns - 1) / columns * t0.shape.1
            + (((t0 :: ts).length + columns - 1) / columns + 1) * sep
      ∧ ⌈((t0 :: ts).length : ℚ) / (columns : ℚ)⌉
          = ((((t0 :: ts).length + columns - 1) / columns : ℕ) : ℤ)
      ∧ canvas.bg = bgcolor
      ∧ canvas.dtype = t0.dtype
      ∧ canvas.pastes.length = (t0 :: ts).length
      ∧ ∀ i : ℕ, canvas.pastes[i]? = ((t0 :: ts)[i]?).map
          fun t => (t, sep + (i % columns) * (t0.shape.2 + sep),
                       sep + (i / columns) * (t0.shape.1 + sep)) := by
  have hchk : (ts.any fun t => t.shape != t0.shape || t.dtype != t0.dtype) = false := by
    rw [List.any_eq_false]
    intro t ht
    simp [(hsame t ht).1, (hsame t ht).2]
  obtain ⟨hlen, hget, hsnd⟩ :=
    tileRowsAux_spec columns hcols sep (t0.shape.2 + sep) (t0.shape.1 + sep)
      (t0 :: ts).length (t0 :: ts) le_rfl sep
  refine ⟨{ width := columns * t0.shape.2 + (columns + 1) * sep
            height := ((t0 :: ts).length + columns - 1) / columns * t0.shape.1
              + (((t0 :: ts).length + columns - 1) / columns + 1) * sep
            bg := bgcolor
            dtype := t0.dtype
            pastes := (tileRows (t0 :: ts) columns sep (t0.shape.2 + sep)
              (t0.shape.1 + sep)).1 },
          [], ?_, rfl, rfl, ceil_div_eq_add_pred_div _ _ hcols, rfl, rfl, ?_, ?_⟩
  · rw [Tile]
    simp only [hchk, Bool.false_eq_true, if_false, hcols, if_neg hcols]
    simp only [tileRows] at hsnd ⊢
    rw [hsnd]
  · simpa [tileRows] using hlen
  · intro i
    simpa [tileRows] using hget i

/-- Witness for C3: one 1×1 tile in a 4-column grid with separation 2. -/
theorem Tile_layout_witness :
    ∃ canvas rest,
      Tile [⟨(1, 1), 0⟩] 4 2 0 = .ok (canvas, rest)
      ∧ canvas.width = 4 * 1 + (4 + 1) * 2
      ∧ canvas.height = (1 + 4 - 1) / 4 * 1 + ((1 + 4 - 1) / 4 + 1) * 2
      ∧ ⌈((1 : ℕ) : ℚ) / ((4 : ℕ) : ℚ)⌉ = (((1 + 4 - 1) / 4 : ℕ) : ℤ)
      ∧ canvas.bg = 0
      ∧ canvas.dtype = 0
      ∧ canvas.pastes.length = 1
      ∧ ∀ i : ℕ, canvas.pastes[i]? = (([⟨(1, 1), 0⟩] : List TileImg)[i]?).map
          fun t => (t, 2 + (i % 4) * (1 + 2), 2 + (i / 4) * (1 + 2)) :=
  Tile_layout ⟨(1, 1), 0⟩ [] 4 2 0 (by decide) (fun t ht => absurd ht (by simp))

/-- C9: `Tile` consumes its argument — whenever it returns rather than
raising, the caller's `tiles` list has been emptied by the `pop(0)`
calls of the paste loop. -/
theorem Tile_consumes_input (tiles : List TileImg) (columns sep bgcolor : ℕ)
    (canvas : TileCanvas) (rest : List TileImg)
    (hok : Tile tiles columns sep bgcolor = .ok (canvas, rest)) :
    rest = [] := by
  cases tiles with
  | nil => simp [Tile] at hok
  | cons t0 ts =>
      rw [Tile] at hok
      by_cases h1 : (ts.any fun t => t.shape != t0.shape || t.dtype != t0.dtype) = true
      · rw [if_pos h1] at hok
        simp at hok
      · rw [if_neg h1] at hok
        by_cases h2 : columns = 0
        · rw [if_pos h2] at hok
          simp at hok
        · rw [if_neg h2] at hok
          simp only [Except.ok.injEq, Prod.mk.injEq] at hok
          rw [← hok.2]
          simp only [tileRows]
          exact (tileRowsAux_spec columns h2 sep (t0.shape.2 + sep) (t0.shape.1 + sep)
            (t0 :: ts).length (t0 :: ts) le_rfl sep).2.2

/-- Witness for C9: after tiling one 1×1 tile the returned list state is
empty. -/
theorem Tile_consumes_input_witness : ([] : List TileImg) = [] :=
  Tile_consumes_input [⟨(1, 1), 0⟩] 4 2 0
    ⟨14, 5, 0, 0, [(⟨(1, 1), 0⟩, 2, 2)]⟩ [] (by rfl)

/-- A row slice of a rectangular image has the image's width. -/
lemma sliceRow_length (im : GreyImg) (r : ℕ)
    (h : ∀ row ∈ im.rows, row.length = im.width) :
    (sliceRow r im).length = im.width := by
  rw [sliceRow]
  by_cases hr : r < im.rows.length
  · rw [if_pos hr, List.getD_eq_getElem _ _ hr]
    exact h _ (List.getElem_mem hr)
  · rw [if_neg hr]
    simp

/-- A concatenated row of rectangular images has the summed width. -/
lemma sliceRow_flatten_length (images : List GreyImg) (r : ℕ)
    (hrect : ∀ im ∈ images, ∀ row ∈ im.rows, row.length = im.width) :
    ((images.map (sliceRow r)).flatten).length = widthSum images := by
  rw [List.length_flatten, List.map_map, widthSum]
  apply congrArg
  apply List.map_congr_left
  intro im him
  exact sliceRow_length im r (hrect im him)

/-- The bottom padding of `hcatLoop`, as a map over the row indices: row
`r` of the padded image is its slice `sliceRow r`. -/
lemma hcat_padded_eq (im : GreyImg) (H : ℕ) (pad : ℚ) (hle : im.height ≤ H) :
    (if im.height < H then np_pad_bottom im.rows (H - im.height) pad 0 im.width
     else im.rows)
      = (List.range H).map fun r => sliceRow r im := by
  have hrw : (if im.height < H then np_pad_bottom im.rows (H - im.height) pad 0 im.width
      else im.rows)
      = im.rows ++ List.replicate (H - im.height) (List.replicate im.width 0) := by
    by_cases hlt : im.height < H
    · simp [np_pad_bottom, hlt]
    · have h0 : H - im.height = 0 := by
        simp only [GreyImg.height] at hle hlt ⊢
        omega
      simp [hlt, h0]
  rw [hrw]
  apply List.ext_getElem?
  intro i
  rcases Nat.lt_or_ge i im.rows.length with hi | hi
  · have hiH : i < H := lt_of_lt_of_le hi hle
    rw [List.getElem?_append_left hi, List.getElem?_map, List.getElem?_range hiH,
      Option.map_some', sliceRow, if_pos hi,
      List.getElem?_eq_getElem hi, List.getD_eq_getElem _ _ hi]
  · rw [List.getElem?_append_right hi]
    rcases Nat.lt_or_ge i H with hiH | hiH
    · rw [List.getElem?_map, List.getElem?_range hiH, Option.map_some',
        sliceRow, if_neg (Nat.not_lt.mpr hi), List.getElem?_replicate,
        if_pos (by simp only [GreyImg.height] at hle ⊢; omega)]
    · rw [List.getElem?_replicate,
        if_neg (by simp only [GreyImg.height] at hle ⊢; omega),
        List.getElem?_map, List.getElem?_eq_none (by simpa using hiH),
        Option.map_none']

/-- Zipping two maps over the same list combines them pointwise. -/
lemma zipWith_map_same {α β γ δ : Type} (l : List α) (f : α → β) (g : α → γ)
    (k : β → γ → δ) :
    List.zipWith k (l.map f) (l.map g) = l.map fun x => k (f x) (g x) := by
  induction l with
  | nil => rfl
  | cons x xs ih => simp [ih]

/-- The first row of the stacked canvas has the summed width. -/
lemma stackRows_head_length (H : ℕ) (hH : 0 < H) (images : List GreyImg)
    (hrect : ∀ im ∈ images, ∀ row ∈ im.rows, row.length = im.width) :
    ((stackRows H images).headD []).length = widthSum images := by
  obtain ⟨k, rfl⟩ := Nat.exists_eq_succ_of_ne_zero (Nat.pos_iff_ne_zero.mp hH)
  rw [stackRows, List.range_succ_eq_map]
  simp only [List.map_cons, List.headD_cons]
  exact sliceRow_flatten_length images 0 hrect

/-- Every image's height is bounded by `max([image.height ...])`. -/
lemma le_maxHeights (im : GreyImg) (images : List GreyImg) (h : im ∈ images) :
    im.height ≤ maxHeights images := by
  induction images with
  | nil => cases h
  | cons x xs ih =>
      rcases List.mem_cons.mp h with heq | hmem
      · subst heq
        simp only [maxHeights, List.foldr_cons]
        exact le_max_left _ _
      · refine le_trans (ih hmem) ?_
        simp only [maxHeights, List.foldr_cons]
        exact le_max_right _ _

/-- Invariant of the `hcat` loop: starting from the stacked canvas of the
`pre`fix already processed, it produces the stacked canvas of all images
and appends the running widths to `u`. -/
lemma hcatLoop_spec (H : ℕ) (hH : 0 < H) (pad : ℚ) :
    ∀ (images : List GreyImg),
      (∀ im ∈ images, im.height ≤ H) →
      (∀ im ∈ images, ∀ row ∈ im.rows, row.length = im.width) →
      ∀ (pre : List GreyImg) (u : List ℕ),
        (∀ im ∈ pre, ∀ row ∈ im.rows, row.length = im.width) →
        hcatLoop H pad (stackRows H pre) u images =
          (stackRows H (pre ++ images), u ++ cumWidths (widthSum pre) images) := by
  intro images
  induction images with
  | nil =>
      intro _ _ pre u _
      simp [hcatLoop, cumWidths]
  | cons im rest ih =>
      intro hle hrect pre u hpre
      have hle' : ∀ x ∈ rest, x.height ≤ H := fun x hx => hle x (by simp [hx])
      have hrect' : ∀ x ∈ rest, ∀ row ∈ x.rows, row.length = x.width :=
        fun x hx => hrect x (by simp [hx])
      have hpre' : ∀ x ∈ pre ++ [im], ∀ row ∈ x.rows, row.length = x.width := by
        intro x hx
        rcases List.mem_append.mp hx with hx1 | hx1
        · exact hpre x hx1
        · rw [List.mem_singleton.mp hx1]
          exact hrect im (by simp)
      simp only [hcatLoop]
      rw [hcat_padded_eq im H pad (hle im (by simp))]
      rw [stackRows_head_length H hH pre hpre]
      have hc : List.zipWith (· ++ ·) (stackRows H pre)
            ((List.range H).map fun r => sliceRow r im)
          = stackRows H (pre ++ [im]) := by
        rw [stackRows, zipWith_map_same, stackRows]
        apply List.map_congr_left
        intro r _
        simp [List.flatten_append]
      rw [hc, ih hle' hrect' (pre ++ [im]) (u ++ [widthSum pre]) hpre']
      have hw : widthSum (pre ++ [im]) = widthSum pre + im.width := by
        simp [widthSum]
      rw [hw]
      simp [cumWidths, List.append_assoc]

/-- The running-offset list is as long as the image list. -/
lemma cumWidths_length (w : ℕ) (images : List GreyImg) :
    (cumWidths w images).length = images.length := by
  induction images generalizing w with
  | nil => rfl
  | cons im rest ih => simp [cumWidths, ih]

/-- Entry `i` of the running-offset list is `w` plus the total width of
the first `i` images. -/
lemma cumWidths_get (w : ℕ) (images : List GreyImg) :
    ∀ i : ℕ, (cumWidths w images)[i]? =
      if i < images.length then some (w + widthSum (images.take i)) else none := by
  induction images generalizing w with
  | nil => intro i; simp [cumWidths]
  | cons im rest ih =>
      intro i
      cases i with
      | zero => simp [cumWidths, widthSum]
      | succ j =>
          simp only [cumWidths, List.getElem?_cons_succ, ih, List.length_cons,
            Nat.succ_lt_succ_iff, List.take_succ_cons]
          by_cases hj : j < rest.length
          · rw [if_pos hj, if_pos hj]
            have harith : (w + im.width) + widthSum (rest.take j)
                = w + widthSum (im :: rest.take j) := by
              simp only [widthSum, List.map_cons, List.sum_cons]
              omega
            rw [harith]
          · rw [if_neg hj, if_neg hj]

/-- Indexing a flattened list at the summed length of the pieces before
piece `i`, plus `c`, lands at entry `c` of piece `i`. -/
lemma flatten_getElem_piece : ∀ (ps : List (List ℚ)) (i : ℕ) (p : List ℚ),
    ps[i]? = some p → ∀ c : ℕ, c < p.length →
      ps.flatten[((ps.take i).map List.length).sum + c]? = p[c]? := by
  intro ps
  induction ps with
  | nil =>
      intro i p hp
      simp at hp
  | cons q ps' ih =>
      intro i p hp c hc
      cases i with
      | zero =>
          simp only [List.getElem?_cons_zero, Option.some.injEq] at hp
          subst hp
          simp only [List.take_zero, List.map_nil, List.sum_nil, Nat.zero_add,
            List.flatten_cons]
          exact List.getElem?_append_left hc
      | succ j =>
          simp only [List.getElem?_cons_succ] at hp
          simp only [List.take_succ_cons, List.map_cons, List.sum_cons,
            List.flatten_cons]
          rw [Nat.add_assoc, List.getElem?_append_right (Nat.le_add_right _ _),
            Nat.add_sub_cancel_left]
          exact ih j p hp c hc

/-- C6 (amended): for a non-empty list of rectangular, non-empty
greyscale images, `hcat` returns `(combo, u)` where `combo` has the
maximum of the heights and the summed width, `u[i]` is the total width of
images `0..i-1` (so `u[0] = 0`), and every image shorter than the common
height is padded at the bottom with ZEROS — not with the `pad` value,
which `np.pad`'s `constant_values=(pad, 0)` assigns only to the empty
before side. -/
theorem hcat_amended (im0 : GreyImg) (rest : List GreyImg) (pad : ℚ)
    (hrect : ∀ im ∈ im0 :: rest, ∀ row ∈ im.rows, row.length = im.width)
    (hpos : ∀ im ∈ im0 :: rest, 0 < im.height) :
    ∃ combo u, hcat (im0 :: rest) pad = .ok (combo, u)
      ∧ combo.height = maxHeights (im0 :: rest)
      ∧ combo.width = widthSum (im0 :: rest)
      ∧ (∀ row ∈ combo.rows, row.length = widthSum (im0 :: rest))
      ∧ u.length = (im0 :: rest).length
      ∧ (∀ i : ℕ, u[i]? = if i < (im0 :: rest).length
            then some (widthSum ((im0 :: rest).take i)) else none)
      ∧ (∀ i : ℕ, ∀ imi, (im0 :: rest)[i]? = some imi →
          ∀ r : ℕ, imi.height ≤ r → r < maxHeights (im0 :: rest) →
          ∀ c : ℕ, c < imi.width →
            ((combo.rows[r]?.getD [])[widthSum ((im0 :: rest).take i) + c]?
              = some 0)) := by
  have hH : 0 < maxHeights (im0 :: rest) :=
    lt_of_lt_of_le (hpos im0 (by simp)) (le_maxHeights im0 _ (by simp))
  have hle : ∀ im ∈ im0 :: rest, im.height ≤ maxHeights (im0 :: rest) :=
    fun im h => le_maxHeights im _ h
  have hinit : (List.replicate (maxHeights (im0 :: rest)) ([] : List ℚ))
      = stackRows (maxHeights (im0 :: rest)) [] := by
    simp [stackRows, List.map_const']
  have hloop := hcatLoop_spec (maxHeights (im0 :: rest)) hH pad (im0 :: rest)
    hle hrect [] [] (by intro x hx; cases hx)
  simp only [List.nil_append, widthSum, List.map_nil, List.sum_nil] at hloop
  refine ⟨⟨stackRows (maxHeights (im0 :: rest)) (im0 :: rest)⟩,
          cumWidths 0 (im0 :: rest), ?_, ?_, ?_, ?_, ?_, ?_, ?_⟩
  · simp only [hcat]
    rw [hinit, hloop]
  · simp [GreyImg.height, stackRows]
  · exact stackRows_head_length _ hH _ hrect
  · intro row hrow
    rw [stackRows] at hrow
    obtain ⟨r, _, rfl⟩ := List.mem_map.mp hrow
    exact sliceRow_flatten_length _ r hrect
  · rw [cumWidths_length]
  · intro i
    simpa using cumWidths_get 0 (im0 :: rest) i
  · intro i imi himi r hr1 hr2 c hc
    have hrrow : (stackRows (maxHeights (im0 :: rest)) (im0 :: rest))[r]? =
        some (((im0 :: rest).map (sliceRow r)).flatten) := by
      rw [stackRows, List.getElem?_map, List.getElem?_range hr2, Option.map_some']
    simp only [hrrow, Option.getD_some]
    have hr1' : ¬ r < imi.rows.length := Nat.not_lt.mpr hr1
    have hslice : sliceRow r imi = List.replicate imi.width 0 := by
      rw [sliceRow, if_neg hr1']
    have hp : ((im0 :: rest).map (sliceRow r))[i]? = some (sliceRow r imi) := by
      rw [List.getElem?_map, himi, Option.map_some']
    have hcp : c < (sliceRow r imi).length := by
      rw [hslice, List.length_replicate]
      exact hc
    have hidx : ((((im0 :: rest).map (sliceRow r)).take i).map List.length).sum
        = widthSum ((im0 :: rest).take i) := by
      rw [← List.map_take, List.map_map, widthSum]
      apply congrArg
      apply List.map_congr_left
      intro x hx
      exact sliceRow_length x r (hrect x (List.take_subset _ _ hx))
    rw [← hidx, flatten_getElem_piece _ i _ hp c hcp, hslice,
      List.getElem?_replicate, if_pos hc]

/-- Witness for the amended C6: two one-column images of heights 1 and 2
with `pad = 5`. -/
theorem hcat_amended_witness :
    ∃ combo u, hcat [⟨[[7]]⟩, ⟨[[8], [9]]⟩] 5 = .ok (combo, u)
      ∧ combo.height = maxHeights [⟨[[7]]⟩, ⟨[[8], [9]]⟩]
      ∧ combo.width = widthSum [⟨[[7]]⟩, ⟨[[8], [9]]⟩]
      ∧ (∀ row ∈ combo.rows, row.length = widthSum [⟨[[7]]⟩, ⟨[[8], [9]]⟩])
      ∧ u.length = ([⟨[[7]]⟩, ⟨[[8], [9]]⟩] : List GreyImg).length
      ∧ (∀ i : ℕ, u[i]? =
            if i < ([⟨[[7]]⟩, ⟨[[8], [9]]⟩] : List GreyImg).length
            then some (widthSum (([⟨[[7]]⟩, ⟨[[8], [9]]⟩] : List GreyImg).take i))
            else none)
      ∧ (∀ i : ℕ, ∀ imi, ([⟨[[7]]⟩, ⟨[[8], [9]]⟩] : List GreyImg)[i]? = some imi →
          ∀ r : ℕ, imi.height ≤ r → r < maxHeights [⟨[[7]]⟩, ⟨[[8], [9]]⟩] →
          ∀ c : ℕ, c < imi.width →
            ((combo.rows[r]?.getD [])[widthSum
              (([⟨[[7]]⟩, ⟨[[8], [9]]⟩] : List GreyImg).take i) + c]?
              = some 0)) :=
  hcat_amended ⟨[[7]]⟩ [⟨[[8], [9]]⟩] 5 (by decide) (by decide)

/-- C6 counterexample: `hcat` of a 1×1 image `[[7]]` and a 2×1 image
`[[8], [9]]` with `pad = 5` fills the first image's bottom padding pixel
with `0`, not with the pad value `5`, so the claim's padding clause fails
at this input. -/
theorem hcat_pad_counterexample :
    hcat [⟨[[7]]⟩, ⟨[[8], [9]]⟩] 5 = .ok (⟨[[7, 8], [0, 9]]⟩, [0, 1])
    ∧ (0 : ℚ) ≠ 5 := by
  constructor
  · rfl
  · norm_num

end MVT
